import Mathlib

/-!
Verification of the resumable multi-part chunked downloader
(src/services/multipart_downloader.py) against its specification.

The Python source is shallowly embedded: pure computations become Lean
functions, the stateful chunk worker and the download coordinator become
explicit state-passing functions driven by environment traces (network
outcomes, control-flag observations, injected I/O failures), and Python's
unbounded integers are modelled as Nat / Int.
-/

/-- Module constant CHUNK_DOWNLOAD_RETRY_DELAY (seconds), line 17. -/
def CHUNK_DOWNLOAD_RETRY_DELAY : Nat := 2

/-- Module constant MAX_CHUNK_DOWNLOAD_RETRIES, line 18. -/
def MAX_CHUNK_DOWNLOAD_RETRIES : Nat := 1

/-- One iteration of the chunk-plan loop of download_file_in_parts
(lines 205-211): for part index i, compute start and end and keep the
range if start <= end, falling back to the (0, -1) sentinel for a
zero-byte file at i = 0, and dropping the part otherwise. -/
def planEntry (total_size chunk_size_calc num_parts i : Nat) : Option (Int × Int) :=
  let start : Int := ((i * chunk_size_calc : Nat) : Int)
  let e : Int :=
    if i < num_parts - 1 then start + (chunk_size_calc : Int) - 1 else (total_size : Int) - 1
  if start ≤ e then some (start, e)
  else if total_size = 0 ∧ i = 0 then some (0, -1)
  else none

/-- chunks_ranges as computed at the start of download_file_in_parts
(lines 202-211), with chunk_size_calc = total_size // num_parts. -/
def chunksRanges (total_size num_parts : Nat) : List (Int × Int) :=
  (List.range num_parts).filterMap (planEntry total_size (total_size / num_parts) num_parts)

/-- Expected byte size of one chunk range (lines 214-216):
end - start + 1 unless end is the -1 sentinel, in which case 0. -/
def chunkSize (p : Int × Int) : Nat :=
  if p.2 ≠ -1 then (p.2 - p.1 + 1).toNat else 0

/-- chunk_actual_sizes (lines 214-216). -/
def chunk_actual_sizes (ranges : List (Int × Int)) : List Nat := ranges.map chunkSize

/-- The ordered list of byte offsets covered by a chunk range; the
(0, -1) sentinel covers no bytes. -/
def coveredBytes (p : Int × Int) : List Nat :=
  List.range' p.1.toNat (p.2 + 1 - p.1).toNat

/-- Shape of a non-final plan entry when the base chunk size is c. -/
def chunkOf (c i : Nat) : Int × Int :=
  (((i * c : Nat) : Int), ((i * c + c : Nat) : Int) - 1)

/-- Exception classes observed by the retry loop of
_download_individual_chunk (lines 151-158): requests ConnectionError,
requests Timeout and http.client.IncompleteRead are caught by the first
except clause and retried; every other requests RequestException
(including any HTTPError raised by raise_for_status, identified here by
its status code) and any unexpected exception fall into the later except
clauses and return immediately. -/
inductive ErrKind where
  | connectionError : ErrKind
  | timeoutError : ErrKind
  | incompleteRead : ErrKind
  | httpError : Nat → ErrKind
  | otherRequestError : ErrKind
  | unexpectedError : ErrKind
deriving DecidableEq

/-- True exactly for the exception classes of the first except clause
(line 151), the one that lets the retry loop continue. -/
def isRetryable : ErrKind → Bool
  | .connectionError => true
  | .timeoutError => true
  | .incompleteRead => true
  | _ => false

/-- One observed iteration of the response.iter_content loop (lines
109-146): the cancellation flag value at the top of the iteration
(covering both the direct check and a cancellation observed while
paused), the data_segment delivered (an empty list is falsy and is
skipped by the `if data_segment` test of line 120), and the speed value
the worker records when more than half a second has elapsed. -/
structure SegEvent where
  cancelHere : Bool
  data : List Nat
  speedUpdate : Option Rat
deriving DecidableEq

/-- Outcome of one attempt of the retry loop: either requests.get or
raise_for_status raises before the part file is opened (requestError),
or the part file is opened for truncating write and the stream delivers
the given events before ending in success (outcome none) or in an
exception (outcome some k). -/
inductive AttemptBody where
  | requestError : ErrKind → AttemptBody
  | streamed : List SegEvent → Option ErrKind → AttemptBody
deriving DecidableEq

/-- One attempt of the retry loop together with the cancellation flag
value observed at the top of the loop (line 90). -/
structure Attempt where
  cancelAtTop : Bool
  body : AttemptBody
deriving DecidableEq

/-- One entry of progress_data['chunks_status'] (lines 243-251). -/
structure ChunkStatus where
  id : Nat
  downloaded : Nat
  total : Nat
  active : Bool
  speed_bps : Rat
deriving DecidableEq, Inhabited

/-- Environment trace of one call of _download_individual_chunk: the
control-flag observations of the pre-download checks (lines 59-72) and
what the network would produce on each attempt. -/
structure WorkerEnv where
  cancelBefore : Bool
  skipBefore : Bool
  pauseCancelBefore : Bool
  attempts : List Attempt
deriving DecidableEq

/-- State threaded through the retry loop: bytes_this_chunk, the shared
total_downloaded_so_far counter, this part's chunks_status entry, plus
the recorded history of counter increments, backoff sleeps, attempts
entered, and the contents written by each truncating open of the part
file. -/
structure WState where
  bytes : Nat
  total : Nat
  status : ChunkStatus
  increments : List Nat
  delays : List Nat
  attemptsStarted : Nat
  opens : List (List Nat)
deriving DecidableEq

/-- The data-writing loop (lines 109-146) over one open part file:
returns the updated state, the content written to the file during this
attempt, and whether the loop returned early because cancellation was
observed. -/
def runSegs : List SegEvent → WState → List Nat → WState × List Nat × Bool
  | [], s, content => (s, content, false)
  | e :: rest, s, content =>
      if e.cancelHere then (s, content, true)
      else if e.data.isEmpty then runSegs rest s content
      else
        let b := s.bytes + e.data.length
        let s' : WState :=
          { s with
            bytes := b
            total := s.total + e.data.length
            status := { s.status with
              downloaded := b
              speed_bps := match e.speedUpdate with
                | some q => q
                | none => s.status.speed_bps }
            increments := s.increments ++ [e.data.length] }
        runSegs rest s' (content ++ e.data)

/-- The retry loop (lines 89-161), with the attempt index threaded for
the exponential backoff sleep of line 96 (slept only when attempt > 0,
after the loop-top cancellation check). Returns the final state and the
(bytes_this_chunk, success) pair. An exhausted attempt list is the loop
running off the end of range(MAX_CHUNK_DOWNLOAD_RETRIES + 1), line 161. -/
def runLoop : List Attempt → Nat → WState → WState × Nat × Bool
  | [], _, s => (s, s.bytes, false)
  | a :: rest, idx, s =>
      let s1 : WState := { s with attemptsStarted := s.attemptsStarted + 1 }
      if a.cancelAtTop then (s1, s1.bytes, false)
      else
        let s2 : WState :=
          if idx = 0 then s1
          else { s1 with delays := s1.delays ++ [CHUNK_DOWNLOAD_RETRY_DELAY * 2 ^ (idx - 1)] }
        match a.body with
        | .requestError k =>
            if isRetryable k then runLoop rest (idx + 1) s2
            else (s2, s2.bytes, false)
        | .streamed evs outcome =>
            let r := runSegs evs s2 []
            let s3 : WState := { r.1 with opens := r.1.opens ++ [r.2.1] }
            if r.2.2 then (s3, s3.bytes, false)
            else
              match outcome with
              | none => (s3, s3.bytes, true)
              | some k =>
                  if isRetryable k then runLoop rest (idx + 1) s3
                  else (s3, s3.bytes, false)

/-- Observable outcome of one call of _download_individual_chunk. -/
structure WorkerRun where
  bytes : Nat
  success : Bool
  status : ChunkStatus
  totalDownloaded : Nat
  increments : List Nat
  delays : List Nat
  attemptsStarted : Nat
  opens : List (List Nat)
deriving DecidableEq

/-- Shallow embedding of _download_individual_chunk (lines 22-166): the
pre-download control checks (lines 59-72, which return before the try
block and so leave the shared status entry untouched), the retry loop
capped at MAX_CHUNK_DOWNLOAD_RETRIES + 1 attempts, and the finally block
(lines 162-166) that clears the active flag and zeroes the speed.
status0 is the coordinator-initialised status slot of this part and t0
the value of the shared counter the worker starts from. -/
def download_individual_chunk (env : WorkerEnv) (status0 : ChunkStatus) (t0 : Nat) :
    WorkerRun :=
  if env.cancelBefore ∨ env.skipBefore ∨ env.pauseCancelBefore then
    { bytes := 0, success := false, status := status0, totalDownloaded := t0,
      increments := [], delays := [], attemptsStarted := 0, opens := [] }
  else
    let s0 : WState :=
      { bytes := 0, total := t0, status := { status0 with active := true },
        increments := [], delays := [], attemptsStarted := 0, opens := [] }
    let r := runLoop (env.attempts.take (MAX_CHUNK_DOWNLOAD_RETRIES + 1)) 0 s0
    { bytes := r.2.1, success := r.2.2,
      status := { r.1.status with active := false, speed_bps := 0 },
      totalDownloaded := r.1.total, increments := r.1.increments,
      delays := r.1.delays, attemptsStarted := r.1.attemptsStarted,
      opens := r.1.opens }

/-- True when an attempt ends in one of the retryable exception classes,
with no cancellation observed during its stream. -/
def endsRetryable (a : Attempt) : Bool :=
  match a.body with
  | .requestError k => isRetryable k
  | .streamed evs outcome =>
      evs.all (fun e => !e.cancelHere) &&
        (match outcome with
         | some k => isRetryable k
         | none => false)

/-- On-disk state seen by one invocation: the contents of the
save_path.part{i} files and of the file at save_path. -/
@[ext] structure Disk where
  parts : Nat → Option (List Nat)
  finalFile : Option (List Nat)

/-- The resumption check of line 229: the part file exists and its size
equals the expected chunk size. -/
def diskComplete (d : Disk) (i : Nat) (sz : Nat) : Bool :=
  match d.parts i with
  | some content => content.length == sz
  | none => false

/-- Indices the resumption scan (lines 223-233) finds complete on disk. -/
def resumedIndices (d : Disk) (sizes : List Nat) : List Nat :=
  (List.range sizes.length).filter (fun i => diskComplete d i (sizes.getD i 0))

/-- Indices of chunks_to_download, in plan order (lines 223-233). -/
def queuedIndices (d : Disk) (sizes : List Nat) : List Nat :=
  (List.range sizes.length).filter (fun i => !(diskComplete d i (sizes.getD i 0)))

/-- total_bytes_resumed accumulated by the resumption scan (line 231). -/
def resumedBytes (d : Disk) (sizes : List Nat) : Nat :=
  ((resumedIndices d sizes).map (fun i => sizes.getD i 0)).sum

/-- progress_data['chunks_status'] initialisation (lines 243-251). -/
def initStatuses (d : Disk) (sizes : List Nat) (num_parts : Nat) : List ChunkStatus :=
  (List.range num_parts).map (fun i =>
    { id := i
      downloaded := if diskComplete d i (sizes.getD i 0) then sizes.getD i 0 else 0
      total := sizes.getD i 0
      active := false
      speed_bps := 0 })

/-- The returned tuple (success, total bytes, md5, file handle); the md5
digest is modelled as the exact byte stream fed to the streaming hasher,
and the reopened read handle as the content of the assembled file. -/
structure CoordResult where
  success : Bool
  totalBytes : Nat
  digest : Option (List Nat)
  handle : Option (List Nat)
deriving DecidableEq

/-- Environment of one invocation of download_file_in_parts: disk is the
pre-existing filesystem; cancelEarly is the cancellation flag value at
the submission loop checks (line 260); cancelDuringRun says whether the
sticky flag becomes set while workers run (observed at lines 281 and
290; cancelEarly implies those checks also see it set); envs gives each
part's worker trace; completionOrder is the order in which as_completed
yields the submitted futures; assemblyErrorAt injects an I/O exception
into the assembly loop before part j is written. -/
structure CoordInput where
  total_size : Nat
  num_parts : Nat
  disk : Disk
  cancelEarly : Bool
  cancelDuringRun : Bool
  envs : Nat → WorkerEnv
  completionOrder : List Nat
  assemblyErrorAt : Option Nat

/-- Observable outcome of one invocation of download_file_in_parts:
the returned tuple (none when the call raises instead of returning,
which happens when num_parts = 0 — ZeroDivisionError at line 203 — or
when the plan is shorter than num_parts, in which case
chunk_actual_sizes[i] raises IndexError at lines 247-248), the final
filesystem, the filesystem right after the download phase, the part
indices submitted to the pool, the pool's max_workers (line 258), and
intermediate accounting. -/
structure CoordRun where
  result : Option CoordResult
  disk : Disk
  diskAfterDownload : Disk
  submitted : List Nat
  poolMaxWorkers : Option Nat
  totalBytesResumed : Nat
  allChunksSuccessful : Bool
  totalBytesFinal : Nat
  assemblyEntered : Bool

/-- The order in which the as_completed loop (lines 280-286) processes
the submitted futures: any permutation of the submitted list. -/
def orderUsed (completionOrder submitted : List Nat) : List Nat :=
  if completionOrder.isPerm submitted then completionOrder else submitted

/-- The assembly loop (lines 299-305): reads each part file in index
order, appending its content to the output file and feeding it to the
hasher; a missing part file or the injected exception aborts the loop.
Returns the bytes written to the output file and whether every part was
written. -/
def assembleGo (parts : Nat → Option (List Nat)) (errAt : Option Nat) :
    List Nat → List Nat × Bool
  | [] => ([], true)
  | i :: rest =>
      if errAt = some i then ([], false)
      else
        match parts i with
        | none => ([], false)
        | some content =>
            let r := assembleGo parts errAt rest
            (content ++ r.1, r.2)

/-- Concatenation of the part-file contents in index order 0..n-1. -/
def partsConcat (d : Disk) (n : Nat) : List Nat :=
  ((List.range n).map (fun i => (d.parts i).getD [])).flatten

/-- Shallow embedding of download_file_in_parts (lines 169-325):
plan, resumption scan, status initialisation, download phase over the
queued chunks, aggregate success accounting, and the assembly /
cleanup phase, whose finally block (lines 313-321) removes every
existing part file whenever the assembly branch was entered. -/
def download_file_in_parts (inp : CoordInput) : CoordRun :=
  if inp.num_parts = 0 then
    { result := none, disk := inp.disk, diskAfterDownload := inp.disk, submitted := [],
      poolMaxWorkers := none, totalBytesResumed := 0, allChunksSuccessful := false,
      totalBytesFinal := 0, assemblyEntered := false }
  else
    let ranges := chunksRanges inp.total_size inp.num_parts
    let sizes := chunk_actual_sizes ranges
    if ranges.isEmpty ∧ 0 < inp.total_size then
      { result := some { success := false, totalBytes := 0, digest := none, handle := none },
        disk := inp.disk, diskAfterDownload := inp.disk, submitted := [],
        poolMaxWorkers := none, totalBytesResumed := 0, allChunksSuccessful := false,
        totalBytesFinal := 0, assemblyEntered := false }
    else if ranges.length < inp.num_parts then
      { result := none, disk := inp.disk, diskAfterDownload := inp.disk, submitted := [],
        poolMaxWorkers := none, totalBytesResumed := 0, allChunksSuccessful := false,
        totalBytesFinal := 0, assemblyEntered := false }
    else
      let queued := queuedIndices inp.disk sizes
      let resumedB := resumedBytes inp.disk sizes
      let statuses := initStatuses inp.disk sizes inp.num_parts
      let submitted := if inp.cancelEarly then [] else queued
      let wr : Nat → WorkerRun := fun i =>
        download_individual_chunk (inp.envs i) (statuses.getD i default) resumedB
      let dAfter : Disk :=
        { parts := (fun i =>
            if i ∈ submitted then
              match (wr i).opens.getLast? with
              | some content => some content
              | none => inp.disk.parts i
            else inp.disk.parts i),
          finalFile := inp.disk.finalFile }
      let order := orderUsed inp.completionOrder submitted
      let fromThreads := (order.map (fun i => (wr i).bytes)).sum
      let cancelLate := inp.cancelEarly || inp.cancelDuringRun
      let afterSubmit := !(inp.cancelEarly && !queued.isEmpty)
      let allOk := (afterSubmit && order.all (fun i => (wr i).success)) && !cancelLate
      let totalFinal := resumedB + fromThreads
      let failResult : CoordResult :=
        { success := false, totalBytes := totalFinal, digest := none, handle := none }
      if allOk && ((totalFinal == inp.total_size) || (inp.total_size == 0)) then
        let asm := assembleGo dAfter.parts inp.assemblyErrorAt (List.range inp.num_parts)
        let dFinal : Disk :=
          { parts := (fun i => if i < inp.num_parts then none else dAfter.parts i),
            finalFile := some asm.1 }
        let okResult : CoordResult :=
          { success := true, totalBytes := totalFinal, digest := some asm.1,
            handle := some asm.1 }
        if asm.2 then
          { result := some okResult,
            disk := dFinal, diskAfterDownload := dAfter, submitted := submitted,
            poolMaxWorkers := some inp.num_parts, totalBytesResumed := resumedB,
            allChunksSuccessful := allOk, totalBytesFinal := totalFinal,
            assemblyEntered := true }
        else
          { result := some failResult,
            disk := dFinal, diskAfterDownload := dAfter, submitted := submitted,
            poolMaxWorkers := some inp.num_parts, totalBytesResumed := resumedB,
            allChunksSuccessful := allOk, totalBytesFinal := totalFinal,
            assemblyEntered := true }
      else
        { result := some failResult,
          disk := dAfter, diskAfterDownload := dAfter, submitted := submitted,
          poolMaxWorkers := some inp.num_parts, totalBytesResumed := resumedB,
          allChunksSuccessful := allOk, totalBytesFinal := totalFinal,
          assemblyEntered := false }

/-- One recorded addition to progress_data['total_downloaded_so_far']
(line 126): which part made it and the bytes added. A run's counter
history is any interleaving of the per-part increment sequences. -/
def IsInterleaving (evs : List (Nat × Nat)) (queued : List Nat)
    (incs : Nat → List Nat) : Prop :=
  (∀ e ∈ evs, e.1 ∈ queued) ∧
    ∀ i ∈ queued, (evs.filter (fun e => e.1 == i)).map Prod.snd = incs i

instance (evs : List (Nat × Nat)) (queued : List Nat) (incs : Nat → List Nat) :
    Decidable (IsInterleaving evs queued incs) := by
  unfold IsInterleaving
  infer_instance

/-- Disk with no part files and no final file. -/
def emptyDisk : Disk := { parts := fun _ => none, finalFile := none }

/-- A plain delivered data segment, no cancellation, no speed update. -/
def segOf (data : List Nat) : SegEvent :=
  { cancelHere := false, data := data, speedUpdate := none }

/-- Status slot as the coordinator initialises it for a queued chunk. -/
def inactiveStatus : ChunkStatus :=
  { id := 0, downloaded := 0, total := 100, active := false, speed_bps := 0 }

/-- Worker trace that never starts (no attempts supplied). -/
def idleEnv : WorkerEnv :=
  { cancelBefore := false, skipBefore := false, pauseCancelBefore := false, attempts := [] }

/-- Worker trace for the C3 counterexample: a first attempt that writes
50 bytes and then hits a retryable connection error, and a retry that
delivers the full 100-byte chunk. -/
def retryDoubleCountEnv : WorkerEnv :=
  { cancelBefore := false, skipBefore := false, pauseCancelBefore := false,
    attempts :=
      [ { cancelAtTop := false,
          body := .streamed [segOf (List.replicate 50 7)] (some .connectionError) },
        { cancelAtTop := false,
          body := .streamed [segOf (List.replicate 100 7)] none } ] }

/-- Worker trace whose single attempt hits a 404 and fails at once. -/
def http404Env : WorkerEnv :=
  { cancelBefore := false, skipBefore := false, pauseCancelBefore := false,
    attempts := [ { cancelAtTop := false, body := .requestError (.httpError 404) } ] }

/-- Worker trace whose single attempt streams the two bytes [1, 2]. -/
def twoByteEnv : WorkerEnv :=
  { cancelBefore := false, skipBefore := false, pauseCancelBefore := false,
    attempts := [ { cancelAtTop := false, body := .streamed [segOf [1, 2]] none } ] }

/-- C2 counterexample input: total_size 4 in 2 parts, both part files
already complete on disk, and an I/O exception injected at the start of
assembly. -/
def inpC2 : CoordInput :=
  { total_size := 4, num_parts := 2,
    disk := { parts := fun i => if i = 0 then some [1, 2]
                else if i = 1 then some [3, 4] else none,
              finalFile := none },
    cancelEarly := false, cancelDuringRun := false, envs := fun _ => idleEnv,
    completionOrder := [], assemblyErrorAt := some 0 }

/-- C9 counterexample input: total_size 2 in 1 part, the part complete
on disk, a pre-existing final file, and an assembly exception injected
right after the output file is opened for truncating write. -/
def inpC9 : CoordInput :=
  { total_size := 2, num_parts := 1,
    disk := { parts := fun i => if i = 0 then some [7, 7] else none,
              finalFile := some [9, 9, 9] },
    cancelEarly := false, cancelDuringRun := false, envs := fun _ => idleEnv,
    completionOrder := [], assemblyErrorAt := some 0 }

/-- C5 counterexample input: total_size 4 in 2 parts, part 0 complete on
disk, part 1 missing, no cancellation. -/
def inpC5 : CoordInput :=
  { total_size := 4, num_parts := 2,
    disk := { parts := fun i => if i = 0 then some [7, 7] else none,
              finalFile := none },
    cancelEarly := false, cancelDuringRun := false, envs := fun _ => idleEnv,
    completionOrder := [], assemblyErrorAt := none }

/-- C6 counterexample input A: cancellation set before any worker
starts. -/
def inpC6A : CoordInput :=
  { total_size := 2, num_parts := 1, disk := emptyDisk,
    cancelEarly := true, cancelDuringRun := false, envs := fun _ => idleEnv,
    completionOrder := [], assemblyErrorAt := none }

/-- C6 counterexample input B: no cancellation, but the single chunk
fails with a non-retryable 404. -/
def inpC6B : CoordInput :=
  { total_size := 2, num_parts := 1, disk := emptyDisk,
    cancelEarly := false, cancelDuringRun := false, envs := fun _ => http404Env,
    completionOrder := [], assemblyErrorAt := none }

/-- C7 witness input: total_size 2 in 1 part, downloaded by one worker
that streams [1, 2]. -/
def inpC7 : CoordInput :=
  { total_size := 2, num_parts := 1, disk := emptyDisk,
    cancelEarly := false, cancelDuringRun := false, envs := fun _ => twoByteEnv,
    completionOrder := [0], assemblyErrorAt := none }

lemma planEntry_total_zero (parts i : Nat) :
    planEntry 0 (0 / parts) parts i = if i = 0 then some ((0 : Int), -1) else none := by
  unfold planEntry
  simp only [Nat.zero_div, Nat.mul_zero, Nat.cast_zero, Nat.cast_ofNat]
  have he : (if i < parts - 1 then (0 : Int) + 0 - 1 else (0 : Int) - 1) = -1 := by
    split <;> norm_num
  rw [he]
  norm_num

lemma chunksRanges_total_zero (parts : Nat) (h : 1 ≤ parts) :
    chunksRanges 0 parts = [((0 : Int), -1)] := by
  obtain ⟨m, rfl⟩ : ∃ m, parts = m + 1 := ⟨parts - 1, by omega⟩
  unfold chunksRanges
  rw [List.range_succ_eq_map, List.filterMap_cons, planEntry_total_zero]
  rw [List.filterMap_map]
  have h2 : (List.range m).filterMap (planEntry 0 (0 / (m + 1)) (m + 1) ∘ Nat.succ) = [] := by
    apply List.filterMap_eq_nil_iff.mpr
    intro i _
    simp only [Function.comp_apply, planEntry_total_zero]
    simp
  rw [h2]
  simp

lemma planEntry_mid (total c parts i : Nat) (hc : 1 ≤ c) (hi : i < parts - 1) :
    planEntry total c parts i = some (chunkOf c i) := by
  unfold planEntry chunkOf
  simp only [if_pos hi]
  have hle : ((i * c : Nat) : Int) ≤ ((i * c : Nat) : Int) + (c : Int) - 1 := by
    have : (1 : Int) ≤ (c : Int) := by exact_mod_cast hc
    omega
  have hcast : ((i * c + c : Nat) : Int) - 1 = ((i * c : Nat) : Int) + (c : Int) - 1 := by
    push_cast
    ring
  rw [if_pos hle, hcast]

lemma div_mul_pred_le (total parts : Nat) (h : 1 ≤ parts) (hc : 1 ≤ total / parts) :
    (parts - 1) * (total / parts) + 1 ≤ total := by
  have h1 : total / parts * parts ≤ total := Nat.div_mul_le_self total parts
  have h2 : (parts - 1) * (total / parts) + total / parts = parts * (total / parts) := by
    have : parts - 1 + 1 = parts := by omega
    calc (parts - 1) * (total / parts) + total / parts
        = ((parts - 1) + 1) * (total / parts) := by ring
      _ = parts * (total / parts) := by rw [this]
  have h3 : parts * (total / parts) ≤ total := by
    calc parts * (total / parts) = total / parts * parts := by ring
      _ ≤ total := h1
  omega

lemma planEntry_mid_zero (total parts i : Nat) (ht : total ≠ 0) (hi : i < parts - 1) :
    planEntry total 0 parts i = none := by
  unfold planEntry
  simp only [if_pos hi]
  have h1 : ¬ (((i * 0 : Nat) : Int) ≤ ((i * 0 : Nat) : Int) + ((0 : Nat) : Int) - 1) := by
    norm_num
  rw [if_neg h1, if_neg (by simp [ht])]

lemma planEntry_last (total c parts : Nat) (_h : 1 ≤ parts)
    (hb : (((parts - 1) * c : Nat) : Int) ≤ (total : Int) - 1) :
    planEntry total c parts (parts - 1) =
      some ((((parts - 1) * c : Nat) : Int), (total : Int) - 1) := by
  unfold planEntry
  simp only [if_neg (lt_irrefl (parts - 1))]
  rw [if_pos hb]

lemma chunksRanges_front (total parts m : Nat) (hc : 1 ≤ total / parts)
    (hm : m ≤ parts - 1) :
    (List.range m).filterMap (planEntry total (total / parts) parts) =
      (List.range m).map (chunkOf (total / parts)) := by
  induction m with
  | zero => simp
  | succ k ih =>
      rw [List.range_succ, List.filterMap_append, List.map_append,
        ih (by omega)]
      simp only [List.filterMap_cons, List.filterMap_nil, List.map_cons, List.map_nil]
      rw [planEntry_mid total (total / parts) parts k hc (by omega)]

lemma chunksRanges_cases (total parts : Nat) (h : 1 ≤ parts) :
    (total = 0 ∧ chunksRanges total parts = [((0 : Int), -1)]) ∨
    (1 ≤ total ∧ total / parts = 0 ∧
      chunksRanges total parts = [((0 : Int), (total : Int) - 1)]) ∨
    (1 ≤ total ∧ 1 ≤ total / parts ∧
      chunksRanges total parts =
        (List.range (parts - 1)).map (chunkOf (total / parts)) ++
          [((((parts - 1) * (total / parts) : Nat) : Int), (total : Int) - 1)]) := by
  rcases Nat.eq_zero_or_pos total with ht | ht
  · subst ht
    exact Or.inl ⟨rfl, chunksRanges_total_zero parts h⟩
  rcases Nat.eq_zero_or_pos (total / parts) with hc | hc
  · refine Or.inr (Or.inl ⟨ht, hc, ?_⟩)
    unfold chunksRanges
    obtain ⟨m, rfl⟩ : ∃ m, parts = m + 1 := ⟨parts - 1, by omega⟩
    rw [List.range_succ, List.filterMap_append, hc]
    have hmid : (List.range m).filterMap (planEntry total 0 (m + 1)) = [] := by
      apply List.filterMap_eq_nil_iff.mpr
      intro i hi
      have hi' : i < m := List.mem_range.mp hi
      exact planEntry_mid_zero total (m + 1) i (by omega) (by omega)
    rw [hmid]
    simp only [List.filterMap_cons, List.filterMap_nil, List.nil_append]
    have hlast := planEntry_last total 0 (m + 1) (by omega)
      (by simp; omega)
    simp only [Nat.add_sub_cancel, Nat.mul_zero, Nat.cast_zero] at hlast
    rw [hlast]
  · refine Or.inr (Or.inr ⟨ht, hc, ?_⟩)
    unfold chunksRanges
    obtain ⟨m, hm⟩ : ∃ m, parts = m + 1 := ⟨parts - 1, by omega⟩
    subst hm
    simp only [Nat.add_sub_cancel]
    rw [List.range_succ, List.filterMap_append,
      chunksRanges_front total (m + 1) m hc (by simp)]
    simp only [List.filterMap_cons, List.filterMap_nil]
    have hb : (((m + 1 - 1) * (total / (m + 1)) : Nat) : Int) ≤ (total : Int) - 1 := by
      have := div_mul_pred_le total (m + 1) (by omega) hc
      simp only [Nat.add_sub_cancel] at this ⊢
      have h2 : ((m * (total / (m + 1)) + 1 : Nat) : Int) ≤ (total : Int) := by
        exact_mod_cast this
      push_cast at h2 ⊢
      omega
    have hlast := planEntry_last total (total / (m + 1)) (m + 1) (by omega) hb
    simp only [Nat.add_sub_cancel] at hlast
    rw [hlast]

lemma coveredBytes_mk (a b : Int) :
    coveredBytes (a, b) = List.range' a.toNat (b + 1 - a).toNat := rfl

lemma chunkSize_mk (a b : Int) :
    chunkSize (a, b) = if b ≠ -1 then (b - a + 1).toNat else 0 := rfl

lemma coveredBytes_chunkOf (c i : Nat) :
    coveredBytes (chunkOf c i) = List.range' (i * c) c := by
  unfold chunkOf
  rw [coveredBytes_mk]
  have h2 : (((i * c + c : Nat) : Int) - 1 + 1 - ((i * c : Nat) : Int)) = (c : Int) := by
    push_cast
    ring
  rw [h2, Int.toNat_natCast, Int.toNat_natCast]

lemma flatten_coveredBytes_front (c m : Nat) :
    (((List.range m).map (chunkOf c)).map coveredBytes).flatten = List.range' 0 (m * c) := by
  induction m with
  | zero => simp
  | succ k ih =>
      rw [List.range_succ, List.map_append, List.map_append, List.flatten_append, ih]
      simp only [List.map_cons, List.map_nil, List.flatten_cons, List.flatten_nil,
        List.append_nil, coveredBytes_chunkOf]
      have ha := List.range'_append_1 0 (k * c) c
      simp only [Nat.zero_add] at ha
      rw [ha]
      congr 1
      ring

lemma chunksRanges_cover (total parts : Nat) (h : 1 ≤ parts) :
    ((chunksRanges total parts).map coveredBytes).flatten = List.range total := by
  rcases chunksRanges_cases total parts h with ⟨ht, hp⟩ | ⟨ht, hc, hp⟩ | ⟨ht, hc, hp⟩
  · rw [hp, ht]
    simp [coveredBytes_mk]
  · rw [hp]
    simp only [List.map_cons, List.map_nil, List.flatten_cons, List.flatten_nil,
      List.append_nil, coveredBytes_mk]
    rw [List.range_eq_range']
    congr 1 <;> omega
  · rw [hp, List.map_append, List.flatten_append, flatten_coveredBytes_front]
    have hb := div_mul_pred_le total parts h hc
    simp only [List.map_cons, List.map_nil, List.flatten_cons, List.flatten_nil,
      List.append_nil, coveredBytes_mk]
    have h1 : List.range' (((parts - 1) * (total / parts) : Nat) : Int).toNat
          (((total : Int) - 1 + 1 - (((parts - 1) * (total / parts) : Nat) : Int)).toNat)
        = List.range' ((parts - 1) * (total / parts))
            (total - (parts - 1) * (total / parts)) := by
      congr 1 <;> omega
    rw [h1]
    generalize hn : (parts - 1) * (total / parts) = n at hb ⊢
    have ha := List.range'_append_1 0 n (total - n)
    simp only [Nat.zero_add] at ha
    rw [ha, List.range_eq_range']
    congr 1
    omega

lemma chunkSize_chunkOf (c i : Nat) (hc : 1 ≤ c) : chunkSize (chunkOf c i) = c := by
  unfold chunkOf
  rw [chunkSize_mk]
  have hne : (((i * c + c : Nat) : Int) - 1) ≠ -1 := by
    have h1 : 1 ≤ i * c + c := by
      have := Nat.le_add_left c (i * c)
      omega
    have h2 : (1 : Int) ≤ ((i * c + c : Nat) : Int) := by exact_mod_cast h1
    omega
  rw [if_pos hne]
  have h3 : (((i * c + c : Nat) : Int) - 1 - ((i * c : Nat) : Int) + 1) = (c : Int) := by
    push_cast
    ring
  rw [h3, Int.toNat_natCast]

lemma chunksRanges_dropLast_sizes (total parts : Nat) (h : 1 ≤ parts) :
    ∀ p ∈ (chunksRanges total parts).dropLast, chunkSize p = total / parts := by
  rcases chunksRanges_cases total parts h with ⟨ht, hp⟩ | ⟨ht, hc, hp⟩ | ⟨ht, hc, hp⟩
  · rw [hp]
    intro p hp'
    simp at hp'
  · rw [hp]
    intro p hp'
    simp at hp'
  · rw [hp, List.dropLast_concat]
    intro p hp'
    obtain ⟨i, _, rfl⟩ := List.mem_map.mp hp'
    exact chunkSize_chunkOf (total / parts) i hc

lemma chunksRanges_last_size (total parts : Nat) (h : 1 ≤ parts) :
    (chunk_actual_sizes (chunksRanges total parts)).getLast? =
      some (total - total / parts * (parts - 1)) := by
  rcases chunksRanges_cases total parts h with ⟨ht, hp⟩ | ⟨ht, hc, hp⟩ | ⟨ht, hc, hp⟩
  · rw [hp, ht]
    unfold chunk_actual_sizes
    simp [chunkSize_mk]
  · rw [hp]
    unfold chunk_actual_sizes
    simp only [List.map_cons, List.map_nil, chunkSize_mk]
    have hne : ((total : Int) - 1) ≠ -1 := by omega
    rw [if_pos hne, hc]
    have hv : ((total : Int) - 1 - 0 + 1).toNat = total - 0 * (parts - 1) := by omega
    rw [hv]
    rfl
  · rw [hp]
    unfold chunk_actual_sizes
    rw [List.map_append]
    simp only [List.map_cons, List.map_nil]
    rw [List.getLast?_concat, chunkSize_mk]
    have hb := div_mul_pred_le total parts h hc
    have hne : ((total : Int) - 1) ≠ -1 := by omega
    rw [if_pos hne]
    congr 1
    rw [Nat.mul_comm (total / parts) (parts - 1)]
    generalize hn : (parts - 1) * (total / parts) = n at hb ⊢
    omega

lemma chunkSize_eq_cover_length (total parts : Nat) (h : 1 ≤ parts) :
    ∀ p ∈ chunksRanges total parts, chunkSize p = (coveredBytes p).length := by
  intro p hp
  rcases chunksRanges_cases total parts h with ⟨ht, hq⟩ | ⟨ht, hc, hq⟩ | ⟨ht, hc, hq⟩
  · rw [hq] at hp
    simp only [List.mem_singleton] at hp
    subst hp
    simp [chunkSize_mk, coveredBytes_mk]
  · rw [hq] at hp
    simp only [List.mem_singleton] at hp
    subst hp
    rw [chunkSize_mk, coveredBytes_mk, List.length_range']
    have hne : ((total : Int) - 1) ≠ -1 := by omega
    rw [if_pos hne]
    omega
  · rw [hq] at hp
    rcases List.mem_append.mp hp with hmem | hmem
    · obtain ⟨i, _, rfl⟩ := List.mem_map.mp hmem
      rw [chunkSize_chunkOf (total / parts) i hc, coveredBytes_chunkOf,
        List.length_range']
    · simp only [List.mem_singleton] at hmem
      subst hmem
      rw [chunkSize_mk, coveredBytes_mk, List.length_range']
      have hb := div_mul_pred_le total parts h hc
      have hne : ((total : Int) - 1) ≠ -1 := by omega
      rw [if_pos hne]
      generalize hn : (parts - 1) * (total / parts) = n at hb ⊢
      omega

lemma chunk_actual_sizes_sum (total parts : Nat) (h : 1 ≤ parts) :
    (chunk_actual_sizes (chunksRanges total parts)).sum = total := by
  have hcov := chunksRanges_cover total parts h
  have hlen : (List.map (List.length ∘ coveredBytes) (chunksRanges total parts)).sum
      = total := by
    have h2 := congrArg List.length hcov
    rwa [List.length_flatten, List.map_map, List.length_range] at h2
  have hmap : List.map chunkSize (chunksRanges total parts)
      = List.map (List.length ∘ coveredBytes) (chunksRanges total parts) := by
    apply List.map_congr_left
    intro p hp
    exact chunkSize_eq_cover_length total parts h p hp
  unfold chunk_actual_sizes
  rw [hmap, hlen]

/-- C1: for every total_size >= 0 and part_count >= 1, the chunk plan of
download_file_in_parts is an ordered sequence of contiguous,
non-overlapping byte ranges covering [0, total_size-1] exactly once (the
concatenation, in plan order, of the byte offsets of its ranges is
exactly the list 0, 1, ..., total_size-1), every part except the last
has size total_size / part_count, and the last part absorbs the
remainder; in particular total_size = 1000, part_count = 3 yields the
ranges [0,332], [333,665], [666,999] with sizes 333, 333, 334. -/
theorem chunk_plan_partition (total_size part_count : Nat) (h : 1 ≤ part_count) :
    (((chunksRanges total_size part_count).map coveredBytes).flatten
      = List.range total_size)
    ∧ (∀ p ∈ (chunksRanges total_size part_count).dropLast,
        chunkSize p = total_size / part_count)
    ∧ ((chunk_actual_sizes (chunksRanges total_size part_count)).getLast?
        = some (total_size - total_size / part_count * (part_count - 1)))
    ∧ chunksRanges 1000 3 = [((0 : Int), 332), (333, 665), (666, 999)]
    ∧ chunk_actual_sizes (chunksRanges 1000 3) = [333, 333, 334] :=
  ⟨chunksRanges_cover total_size part_count h,
   chunksRanges_dropLast_sizes total_size part_count h,
   chunksRanges_last_size total_size part_count h,
   by decide, by decide⟩

theorem chunk_plan_partition_witness :
    1 ≤ 2
    ∧ ((((chunksRanges 10 2).map coveredBytes).flatten = List.range 10)
    ∧ (∀ p ∈ (chunksRanges 10 2).dropLast, chunkSize p = 10 / 2)
    ∧ ((chunk_actual_sizes (chunksRanges 10 2)).getLast? = some (10 - 10 / 2 * (2 - 1)))
    ∧ chunksRanges 1000 3 = [((0 : Int), 332), (333, 665), (666, 999)]
    ∧ chunk_actual_sizes (chunksRanges 1000 3) = [333, 333, 334]) :=
  ⟨by decide, chunk_plan_partition 10 2 (by decide)⟩

/-- C8: for every part_count >= 1, a zero total_size produces a plan
with exactly one chunk range, the sentinel (0, -1); in particular
total_size = 0 with part_count = 5 yields a one-element plan, not five
ranges. -/
theorem zero_size_plan_sentinel (part_count : Nat) (h : 1 ≤ part_count) :
    chunksRanges 0 part_count = [((0 : Int), -1)]
    ∧ (chunksRanges 0 5).length = 1
    ∧ (chunksRanges 0 5).length ≠ 5 :=
  ⟨chunksRanges_total_zero part_count h, by decide, by decide⟩

theorem zero_size_plan_sentinel_witness :
    1 ≤ 5
    ∧ (chunksRanges 0 5 = [((0 : Int), -1)]
    ∧ (chunksRanges 0 5).length = 1
    ∧ (chunksRanges 0 5).length ≠ 5) :=
  ⟨by decide, zero_size_plan_sentinel 5 (by decide)⟩

lemma runSegs_fields (evs : List SegEvent) (s : WState) (content : List Nat) :
    (runSegs evs s content).1.delays = s.delays
    ∧ (runSegs evs s content).1.attemptsStarted = s.attemptsStarted
    ∧ (runSegs evs s content).1.opens = s.opens := by
  induction evs generalizing s content with
  | nil => exact ⟨rfl, rfl, rfl⟩
  | cons e rest ih =>
      simp only [runSegs]
      split
      · exact ⟨rfl, rfl, rfl⟩
      · split
        · exact ih s content
        · exact ih _ _

lemma runSegs_cancel_false (evs : List SegEvent) (s : WState) (content : List Nat)
    (h : evs.all (fun e => !e.cancelHere) = true) :
    (runSegs evs s content).2.2 = false := by
  induction evs generalizing s content with
  | nil => rfl
  | cons e rest ih =>
      simp only [List.all_cons, Bool.and_eq_true, Bool.not_eq_true'] at h
      simp only [runSegs]
      rw [if_neg (by simp [h.1])]
      split
      · exact ih _ _ h.2
      · exact ih _ _ h.2

lemma runSegs_attemptsStarted (evs : List SegEvent) (s : WState) (content : List Nat) :
    (runSegs evs s content).1.attemptsStarted = s.attemptsStarted :=
  (runSegs_fields evs s content).2.1

lemma runSegs_delays (evs : List SegEvent) (s : WState) (content : List Nat) :
    (runSegs evs s content).1.delays = s.delays :=
  (runSegs_fields evs s content).1

lemma runLoop_attempts_le (as : List Attempt) : ∀ (idx : Nat) (s : WState),
    (runLoop as idx s).1.attemptsStarted ≤ s.attemptsStarted + as.length := by
  induction as with
  | nil =>
      intro idx s
      simp [runLoop]
  | cons a rest ih =>
      intro idx s
      simp only [runLoop, List.length_cons]
      repeat' split
      all_goals first
        | (simp [runSegs_attemptsStarted] <;> omega)
        | (refine le_trans (ih _ _) ?_ <;> simp [runSegs_attemptsStarted] <;> omega)

lemma runLoop_retryable_cons (a0 : Attempt) (rest : List Attempt) (s : WState)
    (hc : a0.cancelAtTop = false) (hr : endsRetryable a0 = true) :
    ∃ s', runLoop (a0 :: rest) 0 s = runLoop rest 1 s'
      ∧ s'.attemptsStarted = s.attemptsStarted + 1
      ∧ s'.delays = s.delays := by
  obtain ⟨ct, body⟩ := a0
  simp only at hc
  subst hc
  cases body with
  | requestError k =>
      unfold endsRetryable at hr
      simp only at hr
      refine ⟨{ s with attemptsStarted := s.attemptsStarted + 1 }, ?_, by simp, by simp⟩
      simp [runLoop, hr]
  | streamed evs outcome =>
      unfold endsRetryable at hr
      simp only [Bool.and_eq_true] at hr
      cases outcome with
      | none => simp at hr
      | some k =>
          have hk : isRetryable k = true := by simpa using hr.2
          have hcanc := runSegs_cancel_false evs
            { s with attemptsStarted := s.attemptsStarted + 1 } [] hr.1
          refine ⟨{ (runSegs evs { s with attemptsStarted := s.attemptsStarted + 1 } []).1
              with opens :=
                (runSegs evs { s with attemptsStarted := s.attemptsStarted + 1 } []).1.opens
                  ++ [(runSegs evs { s with attemptsStarted := s.attemptsStarted + 1 } []).2.1] },
            ?_, ?_, ?_⟩
          · simp [runLoop, hk, hcanc]
          · simp [runSegs_attemptsStarted]
          · simp [runSegs_delays]

lemma runLoop_one_attempt (a : Attempt) (idx : Nat) (s : WState)
    (hc : a.cancelAtTop = false) (hidx : idx ≠ 0) :
    (runLoop [a] idx s).1.attemptsStarted = s.attemptsStarted + 1
    ∧ (runLoop [a] idx s).1.delays
        = s.delays ++ [CHUNK_DOWNLOAD_RETRY_DELAY * 2 ^ (idx - 1)] := by
  constructor
  all_goals
    simp only [runLoop]
    repeat' split
    all_goals simp_all [runLoop, runSegs_attemptsStarted, runSegs_delays]

/-- C10: whenever _download_individual_chunk terminates, by any return
path — pre-download early return, retry exhaustion, cancellation,
non-retryable error, or success — the shared status entry of its part is
left with active = false and speed_bps = 0: the early returns of lines
59-72 run before the entry is ever marked active, and every other path
goes through the finally block of lines 162-166. -/
theorem chunk_status_cleared_on_termination (env : WorkerEnv) (status0 : ChunkStatus)
    (t0 : Nat) (ha : status0.active = false) (hs : status0.speed_bps = 0) :
    (download_individual_chunk env status0 t0).status.active = false
    ∧ (download_individual_chunk env status0 t0).status.speed_bps = 0 := by
  unfold download_individual_chunk
  split
  · exact ⟨ha, hs⟩
  · exact ⟨rfl, rfl⟩

theorem chunk_status_cleared_on_termination_witness :
    inactiveStatus.active = false ∧ inactiveStatus.speed_bps = 0
    ∧ ((download_individual_chunk retryDoubleCountEnv inactiveStatus 0).status.active = false
    ∧ (download_individual_chunk retryDoubleCountEnv inactiveStatus 0).status.speed_bps = 0) :=
  ⟨rfl, rfl,
   chunk_status_cleared_on_termination retryDoubleCountEnv inactiveStatus 0 rfl rfl⟩

/-- C4: for every chunk download, connection errors, timeouts and
incomplete reads are retried up to the fixed bound of
MAX_CHUNK_DOWNLOAD_RETRIES = 1 retry, with exponential backoff starting
at the base delay CHUNK_DOWNLOAD_RETRY_DELAY (the retry at attempt index
1 sleeps CHUNK_DOWNLOAD_RETRY_DELAY * 2 ^ 0), while a non-retryable
4xx HTTP error other than 429 makes the chunk return
(bytes_written, False) immediately, with no retry, no backoff sleep and
no further attempt. -/
theorem chunk_retry_policy (env : WorkerEnv) (status0 : ChunkStatus) (t0 : Nat) :
    MAX_CHUNK_DOWNLOAD_RETRIES = 1
    ∧ (download_individual_chunk env status0 t0).attemptsStarted
        ≤ MAX_CHUNK_DOWNLOAD_RETRIES + 1
    ∧ (∀ a0 a1 rest, env.attempts = a0 :: a1 :: rest →
        env.cancelBefore = false → env.skipBefore = false →
        env.pauseCancelBefore = false → a0.cancelAtTop = false →
        a1.cancelAtTop = false → endsRetryable a0 = true →
        (download_individual_chunk env status0 t0).attemptsStarted = 2
        ∧ (download_individual_chunk env status0 t0).delays
            = [CHUNK_DOWNLOAD_RETRY_DELAY * 2 ^ 0])
    ∧ (∀ c a0 rest, env.attempts = a0 :: rest →
        env.cancelBefore = false → env.skipBefore = false →
        env.pauseCancelBefore = false → a0.cancelAtTop = false →
        a0.body = AttemptBody.requestError (ErrKind.httpError c) →
        400 ≤ c → c < 500 → c ≠ 429 →
        (download_individual_chunk env status0 t0).success = false
        ∧ (download_individual_chunk env status0 t0).attemptsStarted = 1
        ∧ (download_individual_chunk env status0 t0).delays = []
        ∧ (download_individual_chunk env status0 t0).increments = []) := by
  refine ⟨rfl, ?_, ?_, ?_⟩
  · unfold download_individual_chunk
    split
    · simp
    · refine le_trans (runLoop_attempts_le _ 0 _) ?_
      show 0 + (List.take (MAX_CHUNK_DOWNLOAD_RETRIES + 1) env.attempts).length
        ≤ MAX_CHUNK_DOWNLOAD_RETRIES + 1
      have h := List.length_take_le (MAX_CHUNK_DOWNLOAD_RETRIES + 1) env.attempts
      omega
  · intro a0 a1 rest hatt hcb hsb hpb hc0 hc1 hr
    unfold download_individual_chunk
    rw [if_neg (by simp [hcb, hsb, hpb]), hatt]
    have htake : (a0 :: a1 :: rest).take (MAX_CHUNK_DOWNLOAD_RETRIES + 1) = [a0, a1] := by
      simp [MAX_CHUNK_DOWNLOAD_RETRIES]
    rw [htake]
    obtain ⟨s', heq, hatt', hdel⟩ := runLoop_retryable_cons a0 [a1]
      { bytes := 0, total := t0, status := { status0 with active := true },
        increments := [], delays := [], attemptsStarted := 0, opens := [] } hc0 hr
    have hone := runLoop_one_attempt a1 1 s' hc1 (by omega)
    constructor
    · show (runLoop [a0, a1] 0 _).1.attemptsStarted = 2
      rw [heq, hone.1, hatt']
    · show (runLoop [a0, a1] 0 _).1.delays = [CHUNK_DOWNLOAD_RETRY_DELAY * 2 ^ 0]
      rw [heq, hone.2, hdel]
      simp
  · intro c a0 rest hatt hcb hsb hpb hc0 hbody h400 h500 h429
    unfold download_individual_chunk
    rw [if_neg (by simp [hcb, hsb, hpb]), hatt]
    obtain ⟨ct, body⟩ := a0
    simp only at hc0
    subst hc0
    simp only at hbody
    subst hbody
    refine ⟨?_, ?_, ?_, ?_⟩ <;>
      simp [MAX_CHUNK_DOWNLOAD_RETRIES, runLoop, isRetryable]

theorem chunk_retry_policy_witness :
    ((download_individual_chunk retryDoubleCountEnv inactiveStatus 0).attemptsStarted = 2
      ∧ (download_individual_chunk retryDoubleCountEnv inactiveStatus 0).delays
          = [CHUNK_DOWNLOAD_RETRY_DELAY * 2 ^ 0])
    ∧ ((download_individual_chunk http404Env inactiveStatus 0).success = false
      ∧ (download_individual_chunk http404Env inactiveStatus 0).attemptsStarted = 1
      ∧ (download_individual_chunk http404Env inactiveStatus 0).delays = []
      ∧ (download_individual_chunk http404Env inactiveStatus 0).increments = []) :=
  ⟨(chunk_retry_policy retryDoubleCountEnv inactiveStatus 0).2.2.1 _ _ _ rfl rfl rfl
      rfl rfl rfl (by decide),
   (chunk_retry_policy http404Env inactiveStatus 0).2.2.2 404 _ _ rfl rfl rfl rfl
      rfl rfl (by decide) (by decide) (by decide)⟩

lemma scanl_add_head (l : List Nat) (t0 : Nat) :
    (List.scanl (fun x y => x + y) t0 l).head? = some t0 := by
  cases l
  · simp [List.scanl_nil]
  · simp [List.scanl_cons]

lemma scanl_add_chain (l : List Nat) : ∀ t0 : Nat,
    List.Chain' (fun x y => x ≤ y) (List.scanl (fun x y => x + y) t0 l) := by
  induction l with
  | nil =>
      intro t0
      simp [List.scanl_nil]
  | cons a rest ih =>
      intro t0
      rw [List.scanl_cons, List.singleton_append, List.chain'_cons']
      refine ⟨?_, ih (t0 + a)⟩
      intro h hh
      rw [scanl_add_head] at hh
      simp only [Option.mem_def, Option.some.injEq] at hh
      omega

lemma scanl_add_le (l : List Nat) : ∀ t0 : Nat,
    ∀ v ∈ List.scanl (fun x y => x + y) t0 l, v ≤ t0 + l.sum := by
  induction l with
  | nil =>
      intro t0 v hv
      rw [List.scanl_nil] at hv
      simp at hv
      omega
  | cons a rest ih =>
      intro t0 v hv
      rw [List.scanl_cons, List.singleton_append] at hv
      simp only [List.mem_cons] at hv
      rcases hv with rfl | hv
      · simp
      · have := ih (t0 + a) v hv
        simp only [List.sum_cons]
        omega

lemma sum_filter_split {α : Type} (l : List α) (p : α → Bool) (f : α → Nat) :
    ((l.filter p).map f).sum + ((l.filter (fun a => !(p a))).map f).sum
      = (l.map f).sum := by
  induction l with
  | nil => simp
  | cons a t ih =>
      cases hp : p a
      · rw [List.filter_cons_of_neg (by simp [hp]), List.filter_cons_of_pos (by simp [hp])]
        simp only [List.map_cons, List.sum_cons]
        omega
      · rw [List.filter_cons_of_pos (by simp [hp]), List.filter_cons_of_neg (by simp [hp])]
        simp only [List.map_cons, List.sum_cons]
        omega

lemma length_filter_split {α : Type} (l : List α) (p : α → Bool) :
    (l.filter p).length + (l.filter (fun a => !(p a))).length = l.length := by
  induction l with
  | nil => simp
  | cons a t ih =>
      cases hp : p a
      · rw [List.filter_cons_of_neg (by simp [hp]), List.filter_cons_of_pos (by simp [hp])]
        simp only [List.length_cons]
        omega
      · rw [List.filter_cons_of_pos (by simp [hp]), List.filter_cons_of_neg (by simp [hp])]
        simp only [List.length_cons]
        omega

lemma interleave_sum (queued : List Nat) : ∀ evs : List (Nat × Nat),
    queued.Nodup →
    (∀ e ∈ evs, e.1 ∈ queued) →
    (evs.map Prod.snd).sum
      = (queued.map
          (fun i => ((evs.filter (fun e => e.1 == i)).map Prod.snd).sum)).sum := by
  induction queued with
  | nil =>
      intro evs _ hmem
      cases evs with
      | nil => simp
      | cons e t => exact absurd (hmem e (by simp)) (by simp)
  | cons q rest ih =>
      intro evs hnd hmem
      have hsplit := sum_filter_split evs (fun e => e.1 == q) Prod.snd
      have hrestmem : ∀ e ∈ evs.filter (fun e => !(e.1 == q)), e.1 ∈ rest := by
        intro e he
        have he' := List.mem_filter.mp he
        have hne : e.1 ≠ q := by
          have := he'.2
          simp at this
          exact this
        rcases List.mem_cons.mp (hmem e he'.1) with h | h
        · exact absurd h hne
        · exact h
      have hrest := ih (evs.filter (fun e => !(e.1 == q)))
        (List.nodup_cons.mp hnd).2 hrestmem
      have hfib : ∀ i ∈ rest,
          (evs.filter (fun e => !(e.1 == q))).filter (fun e => e.1 == i)
            = evs.filter (fun e => e.1 == i) := by
        intro i hi
        have hiq : i ≠ q := fun h => (List.nodup_cons.mp hnd).1 (h ▸ hi)
        rw [List.filter_filter]
        apply List.filter_congr
        intro e _
        by_cases h1 : e.1 = i
        · simp [h1, hiq]
        · simp [h1]
      rw [List.map_cons, List.sum_cons, ← hsplit]
      congr 1
      rw [hrest]
      congr 1
      apply List.map_congr_left
      intro i hi
      rw [hfib i hi]

lemma map_getD_range (l : List Nat) :
    (List.range l.length).map (fun i => l.getD i 0) = l := by
  induction l with
  | nil => simp
  | cons a t ih =>
      rw [List.length_cons, List.range_succ_eq_map, List.map_cons, List.map_map]
      have hcomp : ((fun i => (a :: t).getD i 0) ∘ Nat.succ) = (fun i => t.getD i 0) := by
        funext i
        simp
      rw [hcomp, ih]
      simp

lemma resumed_queued_sum (d : Disk) (sizes : List Nat) :
    resumedBytes d sizes
      + ((queuedIndices d sizes).map (fun i => sizes.getD i 0)).sum
      = sizes.sum := by
  have hs := sum_filter_split (List.range sizes.length)
    (fun i => diskComplete d i (sizes.getD i 0)) (fun i => sizes.getD i 0)
  rw [map_getD_range] at hs
  unfold resumedBytes resumedIndices queuedIndices
  exact hs

/-- C3 counterexample: a run of download_file_in_parts with total_size
100 and one part, whose chunk writes 50 bytes on a failed first attempt
and is then retried successfully, drives the shared
total_downloaded_so_far counter to 150 > 100: the retry loop never
resets bytes_this_chunk, so the re-downloaded bytes are added to the
counter a second time. -/
theorem progress_counter_exceeds_total_cx :
    chunk_actual_sizes (chunksRanges 100 1) = [100]
    ∧ queuedIndices emptyDisk (chunk_actual_sizes (chunksRanges 100 1)) = [0]
    ∧ IsInterleaving [(0, 50), (0, 100)]
        (queuedIndices emptyDisk (chunk_actual_sizes (chunksRanges 100 1)))
        (fun _ => (download_individual_chunk retryDoubleCountEnv inactiveStatus 0).increments)
    ∧ List.scanl (fun x y => x + y)
        (resumedBytes emptyDisk (chunk_actual_sizes (chunksRanges 100 1)))
        ([(0, 50), (0, 100)].map Prod.snd) = [0, 50, 150]
    ∧ 100 < 150 := by decide

/-- C3 (amended): throughout every run of download_file_in_parts the
shared total_downloaded_so_far counter is monotonically non-decreasing;
it never exceeds total_size provided every queued chunk's total bytes
delivered across all its attempts stay within that chunk's planned size
(in particular whenever no failed attempt wrote partial bytes before a
retry). Without that proviso the counter can exceed total_size, because
a retried attempt re-counts the bytes of the failed one. -/
theorem progress_counter_monotone_bounded
    (total parts : Nat) (h : 1 ≤ parts) (d : Disk) (envs : Nat → WorkerEnv)
    (st : Nat → ChunkStatus) (t0 : Nat → Nat) (evs : List (Nat × Nat))
    (hint : IsInterleaving evs
      (queuedIndices d (chunk_actual_sizes (chunksRanges total parts)))
      (fun i => (download_individual_chunk (envs i) (st i) (t0 i)).increments))
    (hbound : ∀ i ∈ queuedIndices d (chunk_actual_sizes (chunksRanges total parts)),
      ((download_individual_chunk (envs i) (st i) (t0 i)).increments).sum
        ≤ (chunk_actual_sizes (chunksRanges total parts)).getD i 0) :
    List.Chain' (fun x y => x ≤ y)
      (List.scanl (fun x y => x + y)
        (resumedBytes d (chunk_actual_sizes (chunksRanges total parts)))
        (evs.map Prod.snd))
    ∧ ∀ v ∈ List.scanl (fun x y => x + y)
        (resumedBytes d (chunk_actual_sizes (chunksRanges total parts)))
        (evs.map Prod.snd), v ≤ total := by
  refine ⟨scanl_add_chain _ _, ?_⟩
  intro v hv
  have h1 := scanl_add_le (evs.map Prod.snd)
    (resumedBytes d (chunk_actual_sizes (chunksRanges total parts))) v hv
  have h2 := interleave_sum
    (queuedIndices d (chunk_actual_sizes (chunksRanges total parts))) evs
    ((List.nodup_range _).filter _) hint.1
  have h3 : ((queuedIndices d (chunk_actual_sizes (chunksRanges total parts))).map
      (fun i => ((evs.filter (fun e => e.1 == i)).map Prod.snd).sum)).sum
      ≤ ((queuedIndices d (chunk_actual_sizes (chunksRanges total parts))).map
        (fun i => (chunk_actual_sizes (chunksRanges total parts)).getD i 0)).sum := by
    apply List.sum_le_sum
    intro i hi
    rw [hint.2 i hi]
    exact hbound i hi
  have h4 := resumed_queued_sum d (chunk_actual_sizes (chunksRanges total parts))
  have h5 := chunk_actual_sizes_sum total parts h
  rw [h2] at h1
  omega

theorem progress_counter_monotone_bounded_witness :
    List.Chain' (fun x y => x ≤ y)
      (List.scanl (fun x y => x + y)
        (resumedBytes emptyDisk (chunk_actual_sizes (chunksRanges 2 1)))
        ([((0 : Nat), (2 : Nat))].map Prod.snd))
    ∧ ∀ v ∈ List.scanl (fun x y => x + y)
        (resumedBytes emptyDisk (chunk_actual_sizes (chunksRanges 2 1)))
        ([((0 : Nat), (2 : Nat))].map Prod.snd), v ≤ 2 :=
  progress_counter_monotone_bounded 2 1 (by decide) emptyDisk (fun _ => twoByteEnv)
    (fun _ => inactiveStatus) (fun _ => 0) [(0, 2)] (by decide) (by decide)

lemma orderUsed_perm (o submitted : List Nat) : (orderUsed o submitted).Perm submitted := by
  unfold orderUsed
  split
  · exact List.isPerm_iff.mp (by assumption)
  · exact List.Perm.refl _

lemma orderUsed_sum (o submitted : List Nat) (f : Nat → Nat) :
    ((orderUsed o submitted).map f).sum = (submitted.map f).sum :=
  ((orderUsed_perm o submitted).map f).sum_eq

lemma orderUsed_all (o submitted : List Nat) (g : Nat → Bool) :
    (orderUsed o submitted).all g = submitted.all g := by
  have hp := orderUsed_perm o submitted
  have hiff : ((orderUsed o submitted).all g = true) ↔ (submitted.all g = true) := by
    simp only [List.all_eq_true]
    constructor
    · intro hall x hx
      exact hall x (hp.mem_iff.mpr hx)
    · intro hall x hx
      exact hall x (hp.mem_iff.mp hx)
  cases h1 : (orderUsed o submitted).all g
  · cases h2 : submitted.all g
    · rfl
    · exact absurd (hiff.mpr h2) (by simp [h1])
  · exact (hiff.mp h1).symm

lemma coord_completion_order_eq (inp : CoordInput) (o1 o2 : List Nat) :
    download_file_in_parts { inp with completionOrder := o1 }
      = download_file_in_parts { inp with completionOrder := o2 } := by
  obtain ⟨ts, np, d, ce, cd, en, co, ae⟩ := inp
  simp only [download_file_in_parts, orderUsed_sum, orderUsed_all]

lemma assembleGo_content (parts : Nat → Option (List Nat)) (errAt : Option Nat) :
    ∀ l : List Nat, (assembleGo parts errAt l).2 = true →
      (assembleGo parts errAt l).1 = (l.map (fun i => (parts i).getD [])).flatten := by
  intro l
  induction l with
  | nil =>
      intro _
      rfl
  | cons i rest ih =>
      intro h
      by_cases he : errAt = some i
      · simp [assembleGo, he] at h
      · cases hp : parts i with
        | none =>
            simp [assembleGo, he, hp] at h
        | some content =>
            simp only [assembleGo, he, hp, if_neg he] at h ⊢
            rw [List.map_cons, List.flatten_cons]
            rw [ih h]
            simp [hp]

/-- C9 (amended): download_file_in_parts opens save_path for writing
only on the path where all chunks succeeded and the byte-totals check
passed (the assembly branch); on every run that does not enter assembly
— worker failure, cancellation, byte mismatch, empty plan, or a raised
exception — the file at save_path is neither created nor modified. An
assembly failure, however, returns success = False after save_path has
already been opened, truncated and possibly partially written, so a
pre-existing file at save_path is not preserved on that failure path. -/
theorem final_file_untouched_without_assembly (inp : CoordInput) :
    ((download_file_in_parts inp).assemblyEntered = false →
      (download_file_in_parts inp).disk.finalFile = inp.disk.finalFile)
    ∧ ((download_file_in_parts inp).assemblyEntered = true →
      (download_file_in_parts inp).allChunksSuccessful = true
      ∧ ((download_file_in_parts inp).totalBytesFinal = inp.total_size
          ∨ inp.total_size = 0)) := by
  simp only [download_file_in_parts]
  split
  · exact ⟨fun _ => rfl, fun h => by simp at h⟩
  · split
    · exact ⟨fun _ => rfl, fun h => by simp at h⟩
    · split
      · exact ⟨fun _ => rfl, fun h => by simp at h⟩
      · split
        next hce =>
          rw [if_neg (by simp [hce])]
          exact ⟨fun _ => rfl, fun h => by simp at h⟩
        next hce =>
          split
          next hcond =>
            have hc := hcond
            rw [Bool.and_eq_true] at hc
            have hc2 := hc.2
            simp only [Bool.or_eq_true, beq_iff_eq] at hc2
            split
            · exact ⟨fun h => by simp at h, fun _ => ⟨hc.1, hc2⟩⟩
            · exact ⟨fun h => by simp at h, fun _ => ⟨hc.1, hc2⟩⟩
          next hcond =>
            exact ⟨fun _ => rfl, fun h => by simp at h⟩

theorem final_file_untouched_without_assembly_witness :
    (download_file_in_parts inpC6B).disk.finalFile = inpC6B.disk.finalFile :=
  (final_file_untouched_without_assembly inpC6B).1 (by decide)

/-- C9 counterexample: a run of download_file_in_parts that reaches
assembly (both chunks of a 2-byte single-part file resumed from disk)
and hits an injected I/O error right after opening save_path returns
success = False, yet the pre-existing final file [9, 9, 9] has been
replaced by the truncated, partially written file — refuting the claim
that an invocation returning success = False never creates or writes
the final output file. -/
theorem failure_final_file_written_cx :
    inpC9.disk.finalFile = some [9, 9, 9]
    ∧ (download_file_in_parts inpC9).result
        = some { success := false, totalBytes := 2, digest := none, handle := none }
    ∧ (download_file_in_parts inpC9).disk.finalFile = some []
    ∧ (download_file_in_parts inpC9).disk.finalFile ≠ inpC9.disk.finalFile := by
  refine ⟨rfl, ?_, ?_, ?_⟩ <;> decide

/-- C2 (code bug demonstration): in a run of download_file_in_parts in
which every chunk is complete (both part files of a 4-byte, 2-part file
already on disk) and the assembly write raises, the function returns
success = False and yet both segment files have been deleted: the
cleanup loop of lines 313-321 is a finally block, so it runs after the
except handler of line 310 as well, deleting every .part file on the
assembly-failure path — contradicting the function's own docstring
("Leaving completed chunks on disk if the download fails") and the
comment above the loop ("Cleanup all individual chunk files after
successful assembly"). -/
theorem assembly_failure_deletes_parts :
    inpC2.disk.parts 0 = some [1, 2]
    ∧ inpC2.disk.parts 1 = some [3, 4]
    ∧ (download_file_in_parts inpC2).result
        = some { success := false, totalBytes := 4, digest := none, handle := none }
    ∧ (download_file_in_parts inpC2).assemblyEntered = true
    ∧ (download_file_in_parts inpC2).disk.parts 0 = none
    ∧ (download_file_in_parts inpC2).disk.parts 1 = none := by
  refine ⟨rfl, rfl, ?_, ?_, ?_, ?_⟩ <;> decide

/-- C5 counterexample: with total_size 4 split in 2 parts and exactly
one of the two segment files already complete on disk, exactly one
worker is submitted, but the thread pool is created with
max_workers = num_parts = 2 (line 258), not with the number of queued
chunks — refuting the claim that the worker pool is sized to the number
of queued chunks rather than the full plan. -/
theorem pool_sized_to_full_plan_cx :
    (download_file_in_parts inpC5).submitted.length = 1
    ∧ (download_file_in_parts inpC5).poolMaxWorkers = some 2
    ∧ (download_file_in_parts inpC5).poolMaxWorkers
        ≠ some (download_file_in_parts inpC5).submitted.length := by
  refine ⟨?_, ?_, ?_⟩ <;> decide

/-- C5 (amended): if exactly k of the N planned segment files exist on
disk with sizes equal to their expected chunk sizes, then
download_file_in_parts submits exactly N − k worker tasks — one per
non-resumed chunk, in plan order — and adds the k resumed chunks' bytes
to the resumed baseline, so resumed chunks consume no worker slots; the
pool itself, however, is created with max_workers = num_parts (the full
plan count), not the number of queued chunks. -/
theorem resumption_spawns_missing_workers (inp : CoordInput)
    (hn : 1 ≤ inp.num_parts)
    (hlen : (chunksRanges inp.total_size inp.num_parts).length = inp.num_parts)
    (hcancel : inp.cancelEarly = false) :
    (download_file_in_parts inp).submitted
        = queuedIndices inp.disk
            (chunk_actual_sizes (chunksRanges inp.total_size inp.num_parts))
    ∧ (download_file_in_parts inp).submitted.length
        + (resumedIndices inp.disk
            (chunk_actual_sizes (chunksRanges inp.total_size inp.num_parts))).length
        = inp.num_parts
    ∧ (download_file_in_parts inp).totalBytesResumed
        = resumedBytes inp.disk
            (chunk_actual_sizes (chunksRanges inp.total_size inp.num_parts))
    ∧ (download_file_in_parts inp).poolMaxWorkers = some inp.num_parts := by
  have hq : (queuedIndices inp.disk
        (chunk_actual_sizes (chunksRanges inp.total_size inp.num_parts))).length
      + (resumedIndices inp.disk
        (chunk_actual_sizes (chunksRanges inp.total_size inp.num_parts))).length
      = inp.num_parts := by
    unfold queuedIndices resumedIndices
    have hsplit := length_filter_split
      (List.range (chunk_actual_sizes (chunksRanges inp.total_size inp.num_parts)).length)
      (fun i => diskComplete inp.disk i
        ((chunk_actual_sizes (chunksRanges inp.total_size inp.num_parts)).getD i 0))
    simp only [List.length_range] at hsplit
    have hslen : (chunk_actual_sizes (chunksRanges inp.total_size inp.num_parts)).length
        = inp.num_parts := by
      unfold chunk_actual_sizes
      rw [List.length_map, hlen]
    omega
  have hA : ¬((chunksRanges inp.total_size inp.num_parts).isEmpty = true
      ∧ 0 < inp.total_size) := by
    rintro ⟨he, _⟩
    rw [List.isEmpty_iff] at he
    rw [he] at hlen
    simp at hlen
    omega
  simp only [download_file_in_parts]
  rw [if_neg (by omega), if_neg hA, if_neg (by omega)]
  rw [if_neg (by simp [hcancel] : ¬(inp.cancelEarly = true))]
  split
  · split
    · exact ⟨rfl, hq, rfl, rfl⟩
    · exact ⟨rfl, hq, rfl, rfl⟩
  · exact ⟨rfl, hq, rfl, rfl⟩

theorem resumption_spawns_missing_workers_witness :
    (download_file_in_parts inpC5).submitted
        = queuedIndices inpC5.disk
            (chunk_actual_sizes (chunksRanges inpC5.total_size inpC5.num_parts))
    ∧ (download_file_in_parts inpC5).submitted.length
        + (resumedIndices inpC5.disk
            (chunk_actual_sizes (chunksRanges inpC5.total_size inpC5.num_parts))).length
        = inpC5.num_parts
    ∧ (download_file_in_parts inpC5).totalBytesResumed
        = resumedBytes inpC5.disk
            (chunk_actual_sizes (chunksRanges inpC5.total_size inpC5.num_parts))
    ∧ (download_file_in_parts inpC5).poolMaxWorkers = some inpC5.num_parts :=
  resumption_spawns_missing_workers inpC5 (by decide) (by decide) rfl

/-- C6 counterexample: a run in which cancellation is set before any
worker starts returns exactly the same tuple
(False, 0, None, None) as a run with no cancellation whose single chunk
fails with a non-retryable 404 — the coordinator's return value carries
no distinct "cancelled" marker, so the caller cannot distinguish
cancellation from a generic failure from the reported result alone. -/
theorem cancelled_result_indistinguishable_cx :
    inpC6A.cancelEarly = true
    ∧ inpC6B.cancelEarly = false
    ∧ inpC6B.cancelDuringRun = false
    ∧ (download_file_in_parts inpC6A).result
        = some { success := false, totalBytes := 0, digest := none, handle := none }
    ∧ (download_file_in_parts inpC6A).result = (download_file_in_parts inpC6B).result := by
  refine ⟨rfl, rfl, rfl, ?_, ?_⟩ <;> decide

/-- C6 (amended): if the cancellation flag is set before any worker
starts, download_file_in_parts submits no worker, writes no byte to any
file (the filesystem is returned unchanged), and returns success =
False with only the resumed bytes counted — never "success"; but the
returned tuple (False, bytes, None, None) is the same generic failure
shape as any other failed run, so distinguishing cancellation requires
consulting the externally owned cancellation flag, not the result. -/
theorem cancel_before_start_no_writes (inp : CoordInput)
    (hn : 1 ≤ inp.num_parts)
    (hlen : (chunksRanges inp.total_size inp.num_parts).length = inp.num_parts)
    (hcancel : inp.cancelEarly = true) :
    (download_file_in_parts inp).disk = inp.disk
    ∧ (download_file_in_parts inp).submitted = []
    ∧ ∃ r, (download_file_in_parts inp).result = some r ∧ r.success = false
        ∧ r.totalBytes = resumedBytes inp.disk
            (chunk_actual_sizes (chunksRanges inp.total_size inp.num_parts))
        ∧ r.digest = none ∧ r.handle = none := by
  have hA : ¬((chunksRanges inp.total_size inp.num_parts).isEmpty = true
      ∧ 0 < inp.total_size) := by
    rintro ⟨he, _⟩
    rw [List.isEmpty_iff] at he
    rw [he] at hlen
    simp at hlen
    omega
  simp only [download_file_in_parts]
  rw [if_neg (by omega), if_neg hA, if_neg (by omega)]
  rw [if_pos hcancel]
  rw [if_neg (by simp [hcancel])]
  refine ⟨?_, rfl, ?_⟩
  · apply Disk.ext
    · funext i
      simp
    · rfl
  · refine ⟨_, rfl, rfl, ?_, rfl, rfl⟩
    rw [orderUsed_sum]
    simp

theorem cancel_before_start_no_writes_witness :
    (download_file_in_parts inpC6A).disk = inpC6A.disk
    ∧ (download_file_in_parts inpC6A).submitted = []
    ∧ ∃ r, (download_file_in_parts inpC6A).result = some r ∧ r.success = false
        ∧ r.totalBytes = resumedBytes inpC6A.disk
            (chunk_actual_sizes (chunksRanges inpC6A.total_size inpC6A.num_parts))
        ∧ r.digest = none ∧ r.handle = none :=
  cancel_before_start_no_writes inpC6A (by decide) (by decide) rfl

/-- C7: on every run of download_file_in_parts that returns success,
the assembled final file is byte-for-byte the concatenation of the part
files (as present after the download phase) in strictly index-ascending
order 0..N-1, the byte stream fed to the md5 hasher is exactly the bytes
written to the final file, the reopened handle reads exactly those
bytes, and the whole run is independent of the order in which
as_completed yields the workers. -/
theorem assembly_index_order (inp : CoordInput) (r : CoordResult)
    (hres : (download_file_in_parts inp).result = some r) (hs : r.success = true) :
    ((download_file_in_parts inp).disk.finalFile
        = some (partsConcat (download_file_in_parts inp).diskAfterDownload inp.num_parts)
      ∧ r.digest = (download_file_in_parts inp).disk.finalFile
      ∧ r.handle = (download_file_in_parts inp).disk.finalFile)
    ∧ ∀ o1 o2, download_file_in_parts { inp with completionOrder := o1 }
        = download_file_in_parts { inp with completionOrder := o2 } := by
  refine ⟨?_, fun o1 o2 => coord_completion_order_eq inp o1 o2⟩
  simp only [download_file_in_parts] at hres ⊢
  split at hres
  next h0 => exact absurd hres (by simp)
  next h0 =>
    split at hres
    next h1 =>
      simp only [Option.some.injEq] at hres
      subst hres
      simp at hs
    next h1 =>
      split at hres
      next h2 => exact absurd hres (by simp)
      next h2 =>
        split at hres
        next hce =>
          split at hres
          next hcond => exact absurd hcond (by simp [hce])
          next hcond =>
            simp only [Option.some.injEq] at hres
            subst hres
            simp at hs
        next hce =>
          split at hres
          next hcond =>
            split at hres
            next hasm =>
              simp only [Option.some.injEq] at hres
              subst hres
              rw [if_neg h0, if_neg h1, if_neg h2, if_neg hce, if_pos hcond,
                if_pos hasm]
              refine ⟨?_, rfl, rfl⟩
              rw [assembleGo_content _ _ _ hasm]
              rfl
            next hasm =>
              simp only [Option.some.injEq] at hres
              subst hres
              simp at hs
          next hcond =>
            simp only [Option.some.injEq] at hres
            subst hres
            simp at hs

theorem assembly_index_order_witness :
    (download_file_in_parts inpC7).disk.finalFile
        = some (partsConcat (download_file_in_parts inpC7).diskAfterDownload
            inpC7.num_parts)
    ∧ (⟨true, 2, some [1, 2], some [1, 2]⟩ : CoordResult).digest
        = (download_file_in_parts inpC7).disk.finalFile
    ∧ (⟨true, 2, some [1, 2], some [1, 2]⟩ : CoordResult).handle
        = (download_file_in_parts inpC7).disk.finalFile :=
  (assembly_index_order inpC7 ⟨true, 2, some [1, 2], some [1, 2]⟩ (by decide) rfl).1
